import Mathlib

/-!
Verification of the randomized algebraic identity-testing core of the
Randomized-Algorithms repository: Freivalds' matrix-product verifier
(`src/CH-7/freivalds_technique.cpp`) and the Schwartz–Zippel bipartite
perfect-matching test (`src/CH-7/perfect_bipartite.cpp`).

The C++ code is shallowly embedded: `std::vector<std::vector<int>>`
matrices become `List (List Int)`; the random vector `r` (resp. the random
edge values) sampled inside the C++ routines becomes an explicit parameter,
so that properties quantified over "every possible random draw" are ordinary
universally quantified theorems; out-of-bounds vector indexing (undefined
behaviour in C++) is modelled by `Option`, with `none` marking an invalid
access.  `long long` arithmetic in the determinant code never overflows
(all operands stay below 2^31, products below 2^62), so it is embedded as
unbounded `Int` with the explicit `% p` reductions of the source.
-/

namespace RandAlg

namespace Freivalds

/-- One term-accumulation loop of `matrixVectorMultiply`:
`for j in js: acc += row[j] * r[j]`, failing (`none`) on an
out-of-bounds access, as the C++ `result[i] += M[i][j] * r[j]` loop
would be undefined behaviour there. -/
def sumTerms (row r : List Int) : List Nat → Int → Option Int
  | [], acc => some acc
  | j :: js, acc =>
    match row[j]?, r[j]? with
    | some x, some y => sumTerms row r js (acc + x * y)
    | _, _ => none

/-- The row-by-row outer loop of `matrixVectorMultiply`; `n` is the bound
of both index loops (the C++ uses `n = M.size()` for rows and columns). -/
def mvmGo (n : Nat) (r : List Int) : List (List Int) → Option (List Int)
  | [] => some []
  | row :: rest => do
    let x ← sumTerms row r (List.range n) 0
    let xs ← mvmGo n r rest
    pure (x :: xs)

/-- Embedding of `matrixVectorMultiply(M, r)` from
`src/CH-7/freivalds_technique.cpp`: `result[i] = Σ_{j<n} M[i][j] * r[j]`
with `n = M.size()`. -/
def matrixVectorMultiply (M : List (List Int)) (r : List Int) : Option (List Int) :=
  mvmGo M.length r M

/-- The dimension validation of `freivaldsVerify`:
`!(n == 0 || A[0].size() != n || B.size() != n || B[0].size() != n ||
C.size() != n || C[0].size() != n)` with `n = A.size()`.  The short-circuit
`||` of the source means `A[0]`, `B[0]`, `C[0]` are only read when the
corresponding length test has already passed, which `List.headD` models
totally. -/
def dimsValid (A B C : List (List Int)) : Prop :=
  A.length ≠ 0 ∧ (A.headD []).length = A.length ∧ B.length = A.length ∧
    (B.headD []).length = A.length ∧ C.length = A.length ∧
    (C.headD []).length = A.length

instance (A B C : List (List Int)) : Decidable (dimsValid A B C) := by
  unfold dimsValid; infer_instance

/-- Embedding of `freivaldsVerify(A, B, C)` from
`src/CH-7/freivalds_technique.cpp`, with the randomly sampled 0/1 vector
`r` made an explicit parameter.  On invalid dimensions the source returns
the plain boolean `false`. -/
def freivaldsVerify (A B C : List (List Int)) (r : List Int) : Option Bool :=
  if dimsValid A B C then do
    let Br ← matrixVectorMultiply B r
    let A_Br ← matrixVectorMultiply A Br
    let Cr ← matrixVectorMultiply C r
    pure (A_Br == Cr)
  else
    some false

/-- Mathematical (total) matrix–vector product used to state correctness:
component `i` is `Σ_{j < M.length} M[i][j] * r[j]`. -/
def matVec (M : List (List Int)) (r : List Int) : List Int :=
  M.map fun row => ∑ j ∈ Finset.range M.length, row.getD j 0 * r.getD j 0

/-- Entry `(i, j)` of a list-of-lists matrix, defaulting to `0` out of
bounds. -/
def ent (M : List (List Int)) (i j : Nat) : Int :=
  (M.getD i []).getD j 0

/-- `M` is a well-formed `m × n` matrix: `m` rows, each of length `n`. -/
def wf (M : List (List Int)) (m n : Nat) : Prop :=
  M.length = m ∧ ∀ row ∈ M, row.length = n

instance (M : List (List Int)) (m n : Nat) : Decidable (wf M m n) := by
  unfold wf; infer_instance

/-- Exact integer matrix product (`n = A.length` square convention):
entry `(i, j)` is `Σ_k A[i][k] * B[k][j]`. -/
def matMul (A B : List (List Int)) : List (List Int) :=
  A.map fun rowA =>
    (List.range A.length).map fun j =>
      ∑ k ∈ Finset.range A.length, rowA.getD k 0 * (B.getD k []).getD j 0

/-- The 0/1 vector handed to `freivaldsVerify` determined by a boolean
choice for each coordinate (the `distribution(0,1)` draws of the source). -/
def rVec (n : Nat) (f : Fin n → Bool) : List Int :=
  List.ofFn fun i => if f i then 1 else 0

end Freivalds

namespace Bipartite

/-- The fixed prime modulus `const ll p = 1000000007` of
`src/CH-7/perfect_bipartite.cpp`. -/
def p : Int := 1000000007

/-- The same modulus as a natural number, indexing the field `ZMod P`
used to state correctness. -/
def P : Nat := 1000000007

/-- Fuelled modular exponentiation by repeated squaring, structurally
recursive so that the kernel can evaluate it; used only to certify the
primality of the modulus via a Lucas certificate. -/
def modPow : Nat → Nat → Nat → Nat → Nat
  | 0, _, _, _ => 1
  | fuel + 1, b, e, m =>
    if e = 0 then 1
    else
      let r := modPow fuel ((b * b) % m) (e / 2) m
      if e % 2 = 1 then (r * b) % m else r

/-- The `while (exp > 0)` loop of `power`: the residue update uses the
not-yet-squared base, exactly as in the source. -/
def powerGo (base exp res : Int) : Int :=
  if 0 < exp then
    powerGo ((base * base) % p) (exp / 2)
      (if exp % 2 = 1 then (res * base) % p else res)
  else res
termination_by exp.toNat
decreasing_by omega

/-- Embedding of `power(base, exp)`: binary modular exponentiation,
with the initial `base %= p` of the source. -/
def power (base exp : Int) : Int :=
  powerGo (base % p) exp 1

/-- Embedding of `modInverse(n) = power(n, p - 2)` (Fermat inverse). -/
def modInverse (n : Int) : Int :=
  power n (p - 2)

/-- A square matrix of the determinant routine, as a total indexing
function; only indices below the dimension `n` are ever read or written,
matching the `vector<vector<ll>>` of the source. -/
abbrev Mat := Nat → Nat → Int

/-- Write `v` into entry `(i, j)` (the in-place `A[i][j] = ...`). -/
def updateEntry (M : Mat) (i j : Nat) (v : Int) : Mat :=
  fun i' j' => if i' = i ∧ j' = j then v else M i' j'

/-- `std::swap(A[a], A[b])`. -/
def swapRows (M : Mat) (a b : Nat) : Mat :=
  fun i j => if i = a then M b j else if i = b then M a j else M i j

/-- The inner elimination loop for one row `i` below pivot row `k`:
`factor = (A[i][k] * modInverse(A[k][k])) % p`, then for `j = k .. n-1`
`A[i][j] = (A[i][j] - (factor * A[k][j]) % p + p) % p`. -/
def elimRow (n : Nat) (M : Mat) (k i : Nat) : Mat :=
  let factor := (M i k * modInverse (M k k)) % p
  (List.range' k (n - k)).foldl
    (fun Mc j => updateEntry Mc i j ((Mc i j - (factor * Mc k j) % p + p) % p)) M

/-- The `for (i = k+1; i < n; ++i)` loop around `elimRow`. -/
def elimBelow (n : Nat) (M : Mat) (k : Nat) : Mat :=
  (List.range' (k + 1) (n - (k + 1))).foldl (fun Mc i => elimRow n Mc k i) M

/-- The pivot search `while (pivot < n && A[pivot][k] == 0) pivot++`. -/
def findPivot (n : Nat) (M : Mat) (k piv : Nat) : Nat :=
  if h : piv < n then
    (if M piv k = 0 then findPivot n M k (piv + 1) else piv)
  else piv
termination_by n - piv
decreasing_by omega

/-- One iteration of the outer `for (k = 0; k < n; ++k)` loop of
`modularDeterminant`, on the state (matrix, running determinant);
`none` models the early `return 0` when no pivot exists. -/
def outerStep (n : Nat) (st : Mat × Int) (k : Nat) : Option (Mat × Int) :=
  let piv := findPivot n st.1 k k
  if piv = n then none
  else
    let M1 := if k = piv then st.1 else swapRows st.1 k piv
    let d1 := if k = piv then st.2 else (p - st.2) % p
    some (elimBelow n M1 k, d1)

/-- The outer loop run for columns `0 .. m-1` (all of `modularDeterminant`
uses `m = n`; the prefix version exposes the state after every outer
iteration). -/
def gaussElimUpTo (n : Nat) (A : Mat) (m : Nat) : Option (Mat × Int) :=
  (List.range m).foldl (fun ost k => ost.bind fun st => outerStep n st k) (some (A, 1))

/-- The full elimination phase of `modularDeterminant`. -/
def gaussElim (n : Nat) (A : Mat) : Option (Mat × Int) :=
  gaussElimUpTo n A n

/-- The closing `for (i) det = (det * A[i][i]) % p` loop. -/
def diagProd (n : Nat) (M : Mat) (det : Int) : Int :=
  (List.range n).foldl (fun d i => (d * M i i) % p) det

/-- Embedding of `modularDeterminant(A)` from
`src/CH-7/perfect_bipartite.cpp` (the early `return 0` branch is the
`none` case of the elimination phase). -/
def modularDeterminant (n : Nat) (A : Mat) : Int :=
  match gaussElim n A with
  | none => 0
  | some (M, det) => (diagProd n M det + p) % p

/-- Field inversion instrumented with its documented precondition: `none`
records a (forbidden) call on the zero element. -/
def modInverseChecked (a : Int) : Option Int :=
  if a = 0 then none else some (modInverse a)

/-- `elimRow` with the instrumented inverse: fails iff the pivot entry
`A[k][k]` it divides by is zero. -/
def elimRowChecked (n : Nat) (M : Mat) (k i : Nat) : Option Mat :=
  (modInverseChecked (M k k)).map fun inv =>
    let factor := (M i k * inv) % p
    (List.range' k (n - k)).foldl
      (fun Mc j => updateEntry Mc i j ((Mc i j - (factor * Mc k j) % p + p) % p)) M

/-- `elimBelow` with the instrumented inverse. -/
def elimBelowChecked (n : Nat) (M : Mat) (k : Nat) : Option Mat :=
  (List.range' (k + 1) (n - (k + 1))).foldlM (fun Mc i => elimRowChecked n Mc k i) M

/-- `outerStep` with the instrumented inverse; the early `return 0` is
kept distinguishable from a precondition violation. -/
def outerStepChecked (n : Nat) (st : Mat × Int) (k : Nat) : Option (Option (Mat × Int)) :=
  let piv := findPivot n st.1 k k
  if piv = n then some none
  else
    let M1 := if k = piv then st.1 else swapRows st.1 k piv
    let d1 := if k = piv then st.2 else (p - st.2) % p
    (elimBelowChecked n M1 k).map fun M2 => some (M2, d1)

/-- The elimination phase with the instrumented inverse: outer `none`
means some call to `modInverse` received the argument `0`; `some none`
is the legitimate early `return 0`. -/
def gaussElimChecked (n : Nat) (A : Mat) : Option (Option (Mat × Int)) :=
  (List.range n).foldl
    (fun ost k => ost.bind fun ores =>
      match ores with
      | none => some none
      | some st => outerStepChecked n st k)
    (some (some (A, 1)))

/-- `modularDeterminant` with the instrumented inverse: returns `none`
iff the run would call `modInverse` on a zero argument. -/
def modularDeterminantChecked (n : Nat) (A : Mat) : Option Int :=
  (gaussElimChecked n A).map fun ores =>
    match ores with
    | none => 0
    | some (M, det) => (diagProd n M det + p) % p

/-- The randomized Edmonds matrix built by `hasPerfectMatching`: entry
`(i,j)` is the sampled value where `graph[i][j] == 1` and `0` elsewhere;
`vals` stands for the stream of `distribution(generator)` draws. -/
def edmondsMatrix (graph vals : Mat) : Mat :=
  fun i j => if graph i j = 1 then vals i j else 0

/-- Embedding of `hasPerfectMatching(graph)` from
`src/CH-7/perfect_bipartite.cpp`, with the sampled random values `vals`
made an explicit parameter. -/
def hasPerfectMatching (n : Nat) (graph vals : Mat) : Bool :=
  if n = 0 then true
  else decide (modularDeterminant n (edmondsMatrix graph vals) ≠ 0)

/-- The image of the working matrix in the field `ZMod P`. -/
def matZ (n : Nat) (M : Mat) : Matrix (Fin n) (Fin n) (ZMod P) :=
  Matrix.of fun i j => ((M (i : Nat) (j : Nat) : Int) : ZMod P)

/-- All relevant entries lie in the canonical range `[0, p-1]`. -/
def inRange (n : Nat) (M : Mat) : Prop :=
  ∀ i j, i < n → j < n → 0 ≤ M i j ∧ M i j < p

instance (n : Nat) (M : Mat) : Decidable (inRange n M) :=
  decidable_of_iff (∀ i < n, ∀ j < n, 0 ≤ M i j ∧ M i j < p)
    (by unfold inRange; exact ⟨fun h i j hi hj => h i hi j hj, fun h i hi j hj => h i j hi hj⟩)

end Bipartite

namespace Freivalds

lemma sum_map_range (n : Nat) (f : Nat → Int) :
    ((List.range n).map f).sum = ∑ j ∈ Finset.range n, f j := by
  induction n with
  | zero => simp
  | succ m ih =>
    rw [List.range_succ, List.map_append, List.sum_append, Finset.sum_range_succ, ih]
    simp

lemma sumTerms_eq_some (row r : List Int) (js : List Nat) (acc : Int)
    (h : ∀ j ∈ js, j < row.length ∧ j < r.length) :
    sumTerms row r js acc
      = some (acc + (js.map fun j => row.getD j 0 * r.getD j 0).sum) := by
  induction js generalizing acc with
  | nil => simp [sumTerms]
  | cons j js ih =>
    obtain ⟨hj1, hj2⟩ := h j (by simp)
    have hred : sumTerms row r (j :: js) acc = sumTerms row r js (acc + row[j] * r[j]) := by
      rw [sumTerms, List.getElem?_eq_getElem hj1, List.getElem?_eq_getElem hj2]
    rw [hred, ih _ fun x hx => h x (List.mem_cons_of_mem _ hx)]
    simp [List.getElem?_eq_getElem hj1, List.getElem?_eq_getElem hj2, add_assoc]

lemma mvmGo_eq_some (n : Nat) (r : List Int) (M' : List (List Int))
    (hrow : ∀ row ∈ M', n ≤ row.length) (hr : n ≤ r.length) :
    mvmGo n r M'
      = some (M'.map fun row => ∑ j ∈ Finset.range n, row.getD j 0 * r.getD j 0) := by
  induction M' with
  | nil => simp [mvmGo]
  | cons row rest ih =>
    rw [mvmGo]
    rw [sumTerms_eq_some row r (List.range n) 0 fun j hj =>
      ⟨lt_of_lt_of_le (List.mem_range.mp hj) (hrow row (by simp)),
       lt_of_lt_of_le (List.mem_range.mp hj) hr⟩]
    rw [ih fun x hx => hrow x (List.mem_cons_of_mem _ hx)]
    simp [sum_map_range]

lemma matrixVectorMultiply_eq_some {M : List (List Int)} {r : List Int} {n : Nat}
    (hM : wf M n n) (hr : n ≤ r.length) :
    matrixVectorMultiply M r = some (matVec M r) := by
  unfold matrixVectorMultiply matVec
  exact mvmGo_eq_some M.length r M (fun row hrow => le_of_eq (hM.1 ▸ (hM.2 row hrow)).symm)
    (hM.1 ▸ hr)

lemma length_matVec (M : List (List Int)) (r : List Int) :
    (matVec M r).length = M.length := by
  simp [matVec]

lemma getD_matVec (M : List (List Int)) (r : List Int) (i : Nat) (h : i < M.length) :
    (matVec M r).getD i 0 = ∑ j ∈ Finset.range M.length, ent M i j * r.getD j 0 := by
  unfold matVec ent
  rw [List.getD_eq_getElem _ _ (by simpa using h), List.getElem_map]
  refine Finset.sum_congr rfl fun j _ => ?_
  rw [List.getD_eq_getElem _ _ h]

lemma wf_matMul (A B : List (List Int)) (n : Nat) (h : A.length = n) :
    wf (matMul A B) n n := by
  constructor
  · simp [matMul, h]
  · intro row hrow
    simp only [matMul, List.mem_map] at hrow
    obtain ⟨a, _, rfl⟩ := hrow
    simp [h]

lemma ent_matMul (A B : List (List Int)) (i j : Nat)
    (hi : i < A.length) (hj : j < A.length) :
    ent (matMul A B) i j = ∑ k ∈ Finset.range A.length, ent A i k * ent B k j := by
  have h1 : (matMul A B).getD i []
      = (List.range A.length).map fun j =>
          ∑ k ∈ Finset.range A.length, (A.getD i []).getD k 0 * (B.getD k []).getD j 0 := by
    unfold matMul
    rw [List.getD_eq_getElem (List.map _ A) [] (by simpa using hi), List.getElem_map,
      List.getD_eq_getElem A [] hi]
  unfold ent
  rw [h1, List.getD_eq_getElem (List.map _ _) 0 (by simpa using hj), List.getElem_map,
    List.getElem_range]

lemma eq_of_ent_eq {X Y : List (List Int)} {n : Nat} (hX : wf X n n) (hY : wf Y n n)
    (h : ∀ i < n, ∀ j < n, ent X i j = ent Y i j) : X = Y := by
  apply List.ext_getElem (by rw [hX.1, hY.1])
  intro i h1 h2
  have hrX : X[i].length = n := hX.2 _ (List.getElem_mem h1)
  have hrY : Y[i].length = n := hY.2 _ (List.getElem_mem h2)
  apply List.ext_getElem (by rw [hrX, hrY])
  intro j hj1 hj2
  have := h i (hX.1 ▸ h1) j (hrX ▸ hj1)
  unfold ent at this
  rwa [List.getD_eq_getElem _ _ h1, List.getD_eq_getElem _ _ h2,
    List.getD_eq_getElem _ _ hj1, List.getD_eq_getElem _ _ hj2] at this

lemma matVec_assoc {A B : List (List Int)} {r : List Int} {n : Nat}
    (hA : wf A n n) (hB : wf B n n) (hr : r.length = n) :
    matVec A (matVec B r) = matVec (matMul A B) r := by
  have hAB : wf (matMul A B) n n := wf_matMul A B n hA.1
  apply List.ext_getElem (by rw [length_matVec, length_matVec, hA.1, hAB.1])
  intro i h1 h2
  have hi : i < n := by rw [length_matVec, hA.1] at h1; exact h1
  rw [← List.getD_eq_getElem _ 0 h1, ← List.getD_eq_getElem _ 0 h2,
    getD_matVec _ _ _ (by rw [length_matVec] at h1; exact h1),
    getD_matVec _ _ _ (by rw [length_matVec] at h2; exact h2), hA.1, hAB.1]
  calc ∑ j ∈ Finset.range n, ent A i j * (matVec B r).getD j 0
      = ∑ j ∈ Finset.range n, ent A i j *
          ∑ k ∈ Finset.range n, ent B j k * r.getD k 0 := by
        refine Finset.sum_congr rfl fun j hj => ?_
        rw [getD_matVec B r j (by rw [hB.1]; exact Finset.mem_range.mp hj), hB.1]
    _ = ∑ j ∈ Finset.range n, ∑ k ∈ Finset.range n,
          ent A i j * ent B j k * r.getD k 0 := by
        refine Finset.sum_congr rfl fun j _ => ?_
        rw [Finset.mul_sum]
        refine Finset.sum_congr rfl fun k _ => ?_
        ring
    _ = ∑ k ∈ Finset.range n, ∑ j ∈ Finset.range n,
          ent A i j * ent B j k * r.getD k 0 := Finset.sum_comm
    _ = ∑ k ∈ Finset.range n, ent (matMul A B) i k * r.getD k 0 := by
        refine Finset.sum_congr rfl fun k hk => ?_
        rw [ent_matMul A B i k (hA.1 ▸ hi) (hA.1 ▸ Finset.mem_range.mp hk), hA.1,
          Finset.sum_mul]

lemma headD_length {M : List (List Int)} {m n : Nat} (h : wf M m n) (hm : m ≠ 0) :
    (M.headD []).length = n := by
  cases M with
  | nil => exact absurd h.1.symm hm
  | cons row rest => exact h.2 row (by simp)

lemma dimsValid_of_wf {A B C : List (List Int)} {n : Nat} (hn : 1 ≤ n)
    (hA : wf A n n) (hB : wf B n n) (hC : wf C n n) : dimsValid A B C := by
  have hn0 : n ≠ 0 := Nat.one_le_iff_ne_zero.mp hn
  refine ⟨by rw [hA.1]; exact hn0, ?_, by rw [hB.1, hA.1], ?_, by rw [hC.1, hA.1], ?_⟩
  · rw [headD_length hA hn0, hA.1]
  · rw [headD_length hB hn0, hA.1]
  · rw [headD_length hC hn0, hA.1]

lemma freivaldsVerify_eq_of_wf {A B C : List (List Int)} {r : List Int} {n : Nat}
    (hn : 1 ≤ n) (hA : wf A n n) (hB : wf B n n) (hC : wf C n n) (hr : r.length = n) :
    freivaldsVerify A B C r
      = some (matVec A (matVec B r) == matVec C r) := by
  unfold freivaldsVerify
  rw [if_pos (dimsValid_of_wf hn hA hB hC)]
  rw [matrixVectorMultiply_eq_some hB (le_of_eq hr.symm)]
  simp only [Option.bind_eq_bind, Option.some_bind]
  rw [matrixVectorMultiply_eq_some hA (by rw [length_matVec, hB.1])]
  simp only [Option.some_bind]
  rw [matrixVectorMultiply_eq_some hC (le_of_eq hr.symm)]
  rfl

lemma length_rVec (n : Nat) (f : Fin n → Bool) : (rVec n f).length = n := by
  simp [rVec]

lemma getD_rVec (n : Nat) (f : Fin n → Bool) (j : Nat) (h : j < n) :
    (rVec n f).getD j 0 = if f ⟨j, h⟩ then 1 else 0 := by
  unfold rVec
  rw [List.getD_eq_getElem _ _ (by simp [h])]
  simp

end Freivalds

namespace Bipartite

lemma modPow_lt (m : Nat) (hm : 2 ≤ m) : ∀ (fuel b e : Nat), modPow fuel b e m < m := by
  intro fuel
  induction fuel with
  | zero => intro b e; simp only [modPow]; omega
  | succ fuel ih =>
    intro b e
    by_cases he : e = 0
    · simp only [modPow, if_pos he]; omega
    · simp only [modPow, if_neg he]
      by_cases ho : e % 2 = 1
      · rw [if_pos ho]; exact Nat.mod_lt _ (by omega)
      · rw [if_neg ho]; exact ih _ _

lemma modPow_cast (m : Nat) : ∀ (fuel b e : Nat), e < 2 ^ fuel →
    ((modPow fuel b e m : Nat) : ZMod m) = ((b : Nat) : ZMod m) ^ e := by
  intro fuel
  induction fuel with
  | zero =>
    intro b e he
    have h0 : e = 0 := by omega
    rw [h0]
    simp [modPow]
  | succ fuel ih =>
    intro b e he
    by_cases he0 : e = 0
    · rw [he0]; simp [modPow]
    · have hpow : (2 : ℕ) ^ (fuel + 1) = 2 * 2 ^ fuel := by rw [pow_succ]; ring
      have he2 : e / 2 < 2 ^ fuel := by omega
      have hr := ih ((b * b) % m) (e / 2) he2
      rw [ZMod.natCast_mod] at hr
      push_cast at hr
      have hsplit : e = 2 * (e / 2) + e % 2 := by omega
      by_cases ho : e % 2 = 1
      · simp only [modPow, if_neg he0, if_pos ho]
        rw [ZMod.natCast_mod]
        push_cast
        rw [hr]
        conv_rhs => rw [hsplit]
        rw [pow_add, pow_mul, ho, pow_one]
        ring
      · have ho0 : e % 2 = 0 := by omega
        simp only [modPow, if_neg he0, if_neg ho]
        rw [hr]
        conv_rhs => rw [hsplit]
        rw [pow_add, pow_mul, ho0, pow_zero, mul_one]
        ring

lemma pow_eq_one_of_modPow (m b e : Nat) (he : e < 2 ^ 40)
    (h1 : modPow 40 b e m = 1) : ((b : Nat) : ZMod m) ^ e = 1 := by
  rw [← modPow_cast m 40 b e he, h1, Nat.cast_one]

lemma pow_ne_one_of_modPow (m b e : Nat) (hm : 2 ≤ m) (he : e < 2 ^ 40)
    (hne : modPow 40 b e m ≠ 1) : ((b : Nat) : ZMod m) ^ e ≠ 1 := by
  haveI : NeZero m := ⟨by omega⟩
  intro hcon
  rw [← modPow_cast m 40 b e he] at hcon
  rw [show (1 : ZMod m) = ((1 : Nat) : ZMod m) from (Nat.cast_one).symm] at hcon
  have hv := congrArg ZMod.val hcon
  rw [ZMod.val_cast_of_lt (modPow_lt m hm 40 b e), ZMod.val_cast_of_lt (by omega)] at hv
  exact hne hv

/-- Lucas certificate for the prime cofactor `(p - 1) / 2` of the modulus. -/
theorem prime_500000003 : Nat.Prime 500000003 := by
  have h2 : Nat.Prime 2 := by norm_num
  have h41 : Nat.Prime 41 := by norm_num
  have h148721 : Nat.Prime 148721 := by norm_num
  apply lucas_primality 500000003 ((2 : Nat) : ZMod 500000003)
  · exact pow_eq_one_of_modPow 500000003 2 (500000003 - 1) (by norm_num) (by decide)
  · intro q hq hdvd
    have hfact : (500000003 : ℕ) - 1 = 2 * (41 * (41 * 148721)) := by norm_num
    rw [hfact] at hdvd
    rcases (Nat.Prime.dvd_mul hq).mp hdvd with h | h
    · rw [(Nat.prime_dvd_prime_iff_eq hq h2).mp h]
      exact pow_ne_one_of_modPow _ 2 _ (by norm_num) (by norm_num) (by decide)
    · rcases (Nat.Prime.dvd_mul hq).mp h with h' | h'
      · rw [(Nat.prime_dvd_prime_iff_eq hq h41).mp h']
        exact pow_ne_one_of_modPow _ 2 _ (by norm_num) (by norm_num) (by decide)
      · rcases (Nat.Prime.dvd_mul hq).mp h' with h'' | h''
        · rw [(Nat.prime_dvd_prime_iff_eq hq h41).mp h'']
          exact pow_ne_one_of_modPow _ 2 _ (by norm_num) (by norm_num) (by decide)
        · rw [(Nat.prime_dvd_prime_iff_eq hq h148721).mp h'']
          exact pow_ne_one_of_modPow _ 2 _ (by norm_num) (by norm_num) (by decide)

/-- Lucas certificate for the modulus `p = 1000000007` itself (witness 5). -/
theorem prime_1000000007 : Nat.Prime 1000000007 := by
  have h2 : Nat.Prime 2 := by norm_num
  have hQ := prime_500000003
  apply lucas_primality 1000000007 ((5 : Nat) : ZMod 1000000007)
  · exact pow_eq_one_of_modPow 1000000007 5 (1000000007 - 1) (by norm_num) (by decide)
  · intro q hq hdvd
    have hfact : (1000000007 : ℕ) - 1 = 2 * 500000003 := by norm_num
    rw [hfact] at hdvd
    rcases (Nat.Prime.dvd_mul hq).mp hdvd with h | h
    · rw [(Nat.prime_dvd_prime_iff_eq hq h2).mp h]
      exact pow_ne_one_of_modPow _ 5 _ (by norm_num) (by norm_num) (by decide)
    · rw [(Nat.prime_dvd_prime_iff_eq hq hQ).mp h]
      exact pow_ne_one_of_modPow _ 5 _ (by norm_num) (by norm_num) (by decide)

instance : Fact (Nat.Prime P) := ⟨prime_1000000007⟩

lemma p_pos : (0 : Int) < p := by unfold p; norm_num

lemma emod_range (a : Int) : 0 ≤ a % p ∧ a % p < p :=
  ⟨Int.emod_nonneg a (by unfold p; norm_num), Int.emod_lt_of_pos a p_pos⟩

lemma intCast_p : ((p : Int) : ZMod P) = 0 := by
  unfold p P
  have : ((1000000007 : ℤ) : ZMod 1000000007) = ((1000000007 : ℕ) : ZMod 1000000007) := by
    push_cast
    rfl
  rw [this, ZMod.natCast_self]

lemma castMod (a : Int) : ((a % p : Int) : ZMod P) = (a : ZMod P) := by
  have h : a % p = a - p * (a / p) := by rw [Int.emod_def]
  rw [h]
  push_cast
  rw [intCast_p]
  ring

lemma powerGo_spec : ∀ (m : Nat) (b e r : Int), e.toNat ≤ m → 0 ≤ r → r < p →
    0 ≤ powerGo b e r ∧ powerGo b e r < p ∧
      ((powerGo b e r : Int) : ZMod P) = ((r : ZMod P) * (b : ZMod P) ^ e.toNat) := by
  intro m
  induction m with
  | zero =>
    intro b e r he hr0 hr1
    have hne : ¬ 0 < e := by omega
    rw [powerGo, if_neg hne]
    have : e.toNat = 0 := by omega
    rw [this]
    exact ⟨hr0, hr1, by simp⟩
  | succ m ih =>
    intro b e r he hr0 hr1
    by_cases hpos : 0 < e
    · rw [powerGo, if_pos hpos]
      have hdiv : (e / 2).toNat ≤ m := by omega
      set r' : Int := if e % 2 = 1 then (r * b) % p else r with hr'
      have hr'0 : 0 ≤ r' ∧ r' < p := by
        rw [hr']
        by_cases hodd : e % 2 = 1
        · rw [if_pos hodd]; exact emod_range _
        · rw [if_neg hodd]; exact ⟨hr0, hr1⟩
      obtain ⟨g0, g1, gcast⟩ := ih ((b * b) % p) (e / 2) r' hdiv hr'0.1 hr'0.2
      refine ⟨g0, g1, ?_⟩
      rw [gcast, castMod]
      have hsplit : e.toNat = 2 * (e / 2).toNat + (e % 2).toNat := by omega
      have hcast' : (r' : ZMod P) = (r : ZMod P) * (b : ZMod P) ^ (e % 2).toNat := by
        rw [hr']
        by_cases hodd : e % 2 = 1
        · rw [if_pos hodd, castMod, hodd]
          push_cast
          ring
        · have h0 : e % 2 = 0 := by omega
          rw [if_neg hodd, h0]
          simp
      rw [hcast', hsplit]
      push_cast
      ring
    · rw [powerGo, if_neg hpos]
      have : e.toNat = 0 := by omega
      rw [this]
      exact ⟨hr0, hr1, by simp⟩

lemma power_spec (b e : Int) :
    0 ≤ power b e ∧ power b e < p ∧
      ((power b e : Int) : ZMod P) = (b : ZMod P) ^ e.toNat := by
  have h1 : (0 : Int) ≤ 1 := by norm_num
  have h2 : (1 : Int) < p := by unfold p; norm_num
  obtain ⟨g0, g1, gcast⟩ := powerGo_spec (e.toNat) (b % p) e 1 le_rfl h1 h2
  unfold power
  exact ⟨g0, g1, by rw [gcast, castMod]; simp⟩

lemma p_sub_two_toNat : ((p - 2 : Int)).toNat = P - 2 := by
  unfold p P
  rfl

lemma modInverse_range (a : Int) : 0 ≤ modInverse a ∧ modInverse a < p := by
  unfold modInverse
  exact ⟨(power_spec a (p - 2)).1, (power_spec a (p - 2)).2.1⟩

lemma powerGo_zero_base : ∀ (m : Nat) (e : Int), e.toNat ≤ m → powerGo 0 e 0 = 0 := by
  intro m
  induction m with
  | zero =>
    intro e he
    have hne : ¬ 0 < e := by omega
    rw [powerGo, if_neg hne]
  | succ m ih =>
    intro e he
    by_cases hpos : 0 < e
    · rw [powerGo, if_pos hpos]
      have h1 : ((0 : Int) * 0) % p = 0 := by simp
      have h2 : (if e % 2 = 1 then ((0 : Int) * 0) % p else (0 : Int)) = 0 := by
        rw [h1, ite_self]
      rw [h1]
      have h3 : (if e % 2 = 1 then ((0 : Int) * 0) % p else (0 : Int)) = 0 := h2
      calc powerGo 0 (e / 2) (if e % 2 = 1 then (0 * 0) % p else 0)
          = powerGo 0 (e / 2) 0 := by rw [h3]
        _ = 0 := ih (e / 2) (by omega)
    · rw [powerGo, if_neg hpos]

lemma modInverse_zero : modInverse 0 = 0 := by
  unfold modInverse power
  have h0 : (0 : Int) % p = 0 := by simp
  rw [h0, powerGo]
  have hpos : (0 : Int) < p - 2 := by norm_num [p]
  rw [if_pos hpos]
  have hodd : (p - 2) % 2 = 1 := by norm_num [p]
  rw [hodd]
  norm_num
  exact powerGo_zero_base ((p - 2) / 2).toNat _ le_rfl

lemma zmod_pow_sub_two {a : ZMod P} (h : a ≠ 0) : a ^ (P - 2) = a⁻¹ := by
  have h1 : a * a ^ (P - 2) = 1 := by
    rw [← pow_succ']
    have h2 : P - 2 + 1 = P - 1 := by norm_num [P]
    rw [h2]
    exact ZMod.pow_card_sub_one_eq_one h
  exact (inv_eq_of_mul_eq_one_right h1).symm

lemma modInverse_spec {a : Int} (h : ((a : Int) : ZMod P) ≠ 0) :
    ((modInverse a : Int) : ZMod P) = ((a : Int) : ZMod P)⁻¹ := by
  unfold modInverse
  rw [(power_spec a (p - 2)).2.2, p_sub_two_toNat]
  exact zmod_pow_sub_two h

/-- Entries below the diagonal are (exactly, as integers) zero in the
first `k` columns: the invariant established after processing pivot
columns `0 .. k-1`. -/
def triangularBelow (n k : Nat) (M : Mat) : Prop :=
  ∀ i j, i < n → j < k → j < i → M i j = 0

lemma updateEntry_self (M : Mat) (i j : Nat) (v : Int) : updateEntry M i j v i j = v := by
  simp [updateEntry]

lemma updateEntry_ne (M : Mat) (i j : Nat) (v : Int) {i' j' : Nat}
    (h : ¬(i' = i ∧ j' = j)) : updateEntry M i j v i' j' = M i' j' := by
  simp only [updateEntry, if_neg h]

lemma foldlUpdate_untouched (i : Nat) (F : Mat → Nat → Int) :
    ∀ (js : List Nat) (Mc : Mat) (i' j' : Nat), (i' ≠ i ∨ j' ∉ js) →
      (js.foldl (fun Mc j => updateEntry Mc i j (F Mc j)) Mc) i' j' = Mc i' j' := by
  intro js
  induction js with
  | nil => intro Mc i' j' _; rfl
  | cons j js ih =>
    intro Mc i' j' h
    rw [List.foldl_cons]
    have h2 : i' ≠ i ∨ j' ∉ js := by
      rcases h with h | h
      · exact Or.inl h
      · exact Or.inr fun hm => h (List.mem_cons_of_mem _ hm)
    rw [ih _ i' j' h2]
    apply updateEntry_ne
    rintro ⟨rfl, rfl⟩
    rcases h with h | h
    · exact h rfl
    · exact h (List.mem_cons_self _ _)

lemma foldlUpdate_inRange (n i : Nat) (F : Mat → Nat → Int)
    (hF : ∀ Mc j, 0 ≤ F Mc j ∧ F Mc j < p) :
    ∀ (js : List Nat) (Mc : Mat), inRange n Mc →
      inRange n (js.foldl (fun Mc j => updateEntry Mc i j (F Mc j)) Mc) := by
  intro js
  induction js with
  | nil => intro Mc h; exact h
  | cons j js ih =>
    intro Mc h
    rw [List.foldl_cons]
    apply ih
    intro a b ha hb
    by_cases hab : a = i ∧ b = j
    · rw [hab.1, hab.2, updateEntry_self]
      exact hF Mc j
    · rw [updateEntry_ne _ _ _ _ hab]
      exact h a b ha hb

lemma elimRow_untouched (n k i : Nat) (M : Mat) (i' j' : Nat)
    (h : i' ≠ i ∨ j' < k ∨ n ≤ j') : elimRow n M k i i' j' = M i' j' := by
  unfold elimRow
  apply foldlUpdate_untouched
  rcases h with h | h
  · exact Or.inl h
  · refine Or.inr fun hm => ?_
    have := List.mem_range'_1.mp hm
    omega

lemma elimRow_inRange (n k i : Nat) (M : Mat) (h : inRange n M) :
    inRange n (elimRow n M k i) := by
  unfold elimRow
  exact foldlUpdate_inRange n i _ (fun Mc j => emod_range _) _ M h

lemma elimRow_val (n k i : Nat) (M : Mat) (hik : i ≠ k) (j : Nat)
    (hj1 : k ≤ j) (hj2 : j < n) :
    elimRow n M k i i j
      = (M i j - ((M i k * modInverse (M k k)) % p) * M k j % p + p) % p := by
  unfold elimRow
  generalize (M i k * modInverse (M k k)) % p = factor
  have key : ∀ (len s : Nat) (Mc : Mat), s ≤ j → j < s + len →
      ((List.range' s len).foldl
        (fun Mc j => updateEntry Mc i j ((Mc i j - factor * Mc k j % p + p) % p)) Mc) i j
      = (Mc i j - factor * Mc k j % p + p) % p := by
    intro len
    induction len with
    | zero => intro s Mc h1 h2; omega
    | succ len ih =>
      intro s Mc h1 h2
      rw [List.range'_succ, List.foldl_cons]
      by_cases hs : s = j
      · subst hs
        have hnot : i ≠ i ∨ s ∉ List.range' (s + 1) len := by
          refine Or.inr fun hm => ?_
          have := List.mem_range'_1.mp hm
          omega
        rw [foldlUpdate_untouched i _ (List.range' (s + 1) len) _ i s hnot,
          updateEntry_self]
      · have h1' : s + 1 ≤ j := by omega
        rw [ih (s + 1) _ h1' (by omega)]
        have e1 : updateEntry Mc i s ((Mc i s - factor * Mc k s % p + p) % p) i j
            = Mc i j := updateEntry_ne _ _ _ _ (fun hc => hs hc.2.symm)
        have e2 : updateEntry Mc i s ((Mc i s - factor * Mc k s % p + p) % p) k j
            = Mc k j := updateEntry_ne _ _ _ _ (fun hc => hik hc.1.symm)
        rw [e1, e2]
  exact key (n - k) k M hj1 (by omega)

lemma swapRows_left (M : Mat) (a b j : Nat) : swapRows M a b a j = M b j := by
  simp [swapRows]

lemma swapRows_right (M : Mat) (a b j : Nat) (h : b ≠ a) : swapRows M a b b j = M a j := by
  simp [swapRows, h]

lemma swapRows_other (M : Mat) (a b i j : Nat) (h1 : i ≠ a) (h2 : i ≠ b) :
    swapRows M a b i j = M i j := by
  simp [swapRows, h1, h2]

lemma findPivot_spec : ∀ (fuel piv : Nat) (n k : Nat) (M : Mat), n - piv ≤ fuel → piv ≤ n →
    piv ≤ findPivot n M k piv ∧ findPivot n M k piv ≤ n ∧
      (∀ t, piv ≤ t → t < findPivot n M k piv → M t k = 0) ∧
      (findPivot n M k piv < n → M (findPivot n M k piv) k ≠ 0) := by
  intro fuel
  induction fuel with
  | zero =>
    intro piv n k M h1 h2
    have hpn : piv = n := by omega
    rw [findPivot, dif_neg (by omega)]
    exact ⟨le_rfl, h2, fun t ht1 ht2 => by omega, fun h => by omega⟩
  | succ fuel ih =>
    intro piv n k M h1 h2
    by_cases hlt : piv < n
    · rw [findPivot, dif_pos hlt]
      by_cases hz : M piv k = 0
      · rw [if_pos hz]
        obtain ⟨g1, g2, g3, g4⟩ := ih (piv + 1) n k M (by omega) (by omega)
        refine ⟨by omega, g2, ?_, g4⟩
        intro t ht1 ht2
        by_cases htp : t = piv
        · rw [htp]; exact hz
        · exact g3 t (by omega) ht2
      · rw [if_neg hz]
        exact ⟨le_rfl, by omega, fun t ht1 ht2 => by omega, fun _ => hz⟩
    · rw [findPivot, dif_neg hlt]
      exact ⟨le_rfl, h2, fun t ht1 ht2 => by omega, fun h => by omega⟩

lemma cast_eq_zero_iff_of_range {x : Int} (h0 : 0 ≤ x) (h1 : x < p) :
    ((x : ZMod P) = 0) ↔ x = 0 := by
  constructor
  · intro h
    have hdvd : ((P : ℕ) : Int) ∣ x := (ZMod.intCast_zmod_eq_zero_iff_dvd x P).mp h
    have hP : ((P : ℕ) : Int) = p := by norm_num [P, p]
    rw [hP] at hdvd
    have h2 : x % p = 0 := Int.emod_eq_zero_of_dvd hdvd
    have h3 : x % p = x := Int.emod_eq_of_lt h0 h1
    omega
  · intro h
    rw [h]
    simp

lemma castNegD (d : Int) : (((p - d) % p : Int) : ZMod P) = -((d : Int) : ZMod P) := by
  rw [castMod]
  push_cast
  rw [intCast_p]
  ring

lemma matZ_apply (n : Nat) (M : Mat) (i j : Fin n) :
    matZ n M i j = ((M (i : Nat) (j : Nat) : Int) : ZMod P) := rfl

lemma det_matZ_swapRows (n a b : Nat) (ha : a < n) (hb : b < n) (hab : a ≠ b) (M : Mat) :
    (matZ n (swapRows M a b)).det = -(matZ n M).det := by
  have hfin : (⟨a, ha⟩ : Fin n) ≠ ⟨b, hb⟩ := by
    simp [Fin.ext_iff, hab]
  have he : matZ n (swapRows M a b)
      = (matZ n M).submatrix (Equiv.swap ⟨a, ha⟩ ⟨b, hb⟩) id := by
    ext i j
    rw [Matrix.submatrix_apply, id, matZ_apply, matZ_apply]
    by_cases h1 : i = (⟨a, ha⟩ : Fin n)
    · rw [h1, Equiv.swap_apply_left]
      rw [swapRows_left]
    · by_cases h2 : i = (⟨b, hb⟩ : Fin n)
      · rw [h2, Equiv.swap_apply_right]
        rw [swapRows_right _ _ _ _ fun hc => hab hc.symm]
      · rw [Equiv.swap_apply_of_ne_of_ne h1 h2]
        rw [swapRows_other _ _ _ _ _ (fun hc => h1 (Fin.ext hc)) fun hc => h2 (Fin.ext hc)]
  rw [he, Matrix.det_permute, Equiv.Perm.sign_swap hfin]
  simp

lemma matZ_elimRow (n k i : Nat) (M : Mat) (hk : k < n) (hi : i < n) (hki : k < i)
    (hrowk : ∀ j, j < k → M k j = 0) :
    matZ n (elimRow n M k i)
      = (matZ n M).updateRow ⟨i, hi⟩
          ((matZ n M) ⟨i, hi⟩
            + (-(((M i k * modInverse (M k k)) % p : Int) : ZMod P))
              • (matZ n M) ⟨k, hk⟩) := by
  ext a b
  by_cases hai : (a : ℕ) = i
  · have ha : a = ⟨i, hi⟩ := Fin.ext hai
    rw [ha, Matrix.updateRow_self]
    simp only [Pi.add_apply, Pi.smul_apply, smul_eq_mul, matZ_apply]
    by_cases hbk : k ≤ (b : ℕ)
    · rw [elimRow_val n k i M (by omega) b hbk b.isLt, castMod]
      push_cast
      rw [castMod, intCast_p]
      push_cast
      ring
    · rw [elimRow_untouched n k i M i b (Or.inr (Or.inl (by omega)))]
      rw [hrowk (b : ℕ) (by omega)]
      push_cast
      ring
  · have ha : a ≠ (⟨i, hi⟩ : Fin n) := fun hc => hai (by rw [hc])
    rw [Matrix.updateRow_ne ha, matZ_apply, matZ_apply]
    rw [elimRow_untouched n k i M _ _ (Or.inl hai)]

lemma det_matZ_elimRow (n k i : Nat) (M : Mat) (hk : k < n) (hi : i < n) (hki : k < i)
    (hrowk : ∀ j, j < k → M k j = 0) :
    (matZ n (elimRow n M k i)).det = (matZ n M).det := by
  rw [matZ_elimRow n k i M hk hi hki hrowk]
  exact Matrix.det_updateRow_add_smul_self _ (by simp [Fin.ext_iff]; omega) _

lemma elimRow_col_k_zero (n k i : Nat) (M : Mat) (hk : k < n) (hi : i < n) (hki : k < i)
    (hr : inRange n M) (hkk0 : M k k ≠ 0) :
    elimRow n M k i i k = 0 := by
  rw [elimRow_val n k i M (by omega) k le_rfl hk]
  have hkkZ : ((M k k : Int) : ZMod P) ≠ 0 := by
    rw [Ne, cast_eq_zero_iff_of_range (hr k k hk hk).1 (hr k k hk hk).2]
    exact hkk0
  have hcast :
      (((M i k - (M i k * modInverse (M k k)) % p * M k k % p + p) % p : Int) : ZMod P)
        = 0 := by
    rw [castMod]
    push_cast
    rw [castMod, intCast_p]
    push_cast
    rw [castMod]
    push_cast
    rw [modInverse_spec hkkZ]
    have hcancel : ((M k k : Int) : ZMod P)⁻¹ * ((M k k : Int) : ZMod P) = 1 :=
      inv_mul_cancel₀ hkkZ
    calc ((M i k : Int) : ZMod P)
          - ((M i k : Int) : ZMod P) * ((M k k : Int) : ZMod P)⁻¹
            * ((M k k : Int) : ZMod P) + 0
        = ((M i k : Int) : ZMod P)
            - ((M i k : Int) : ZMod P)
              * (((M k k : Int) : ZMod P)⁻¹ * ((M k k : Int) : ZMod P)) := by ring
      _ = 0 := by rw [hcancel]; ring
  have hrange := emod_range (M i k - (M i k * modInverse (M k k)) % p * M k k % p + p)
  exact (cast_eq_zero_iff_of_range hrange.1 hrange.2).mp hcast

lemma card_filter_lt_fin (n m : Nat) (h : m ≤ n) :
    (Finset.univ.filter fun i : Fin n => (i : ℕ) < m).card = m := by
  have himg : (Finset.univ.filter fun i : Fin n => (i : ℕ) < m).image Fin.val
      = Finset.range m := by
    ext x
    simp only [Finset.mem_image, Finset.mem_filter, Finset.mem_univ, true_and,
      Finset.mem_range]
    constructor
    · rintro ⟨i, hi, rfl⟩
      exact hi
    · intro hx
      exact ⟨⟨x, by omega⟩, hx, rfl⟩
  have hcard := Finset.card_image_of_injective
    (Finset.univ.filter fun i : Fin n => (i : ℕ) < m) Fin.val_injective
  rw [himg, Finset.card_range] at hcard
  omega

lemma det_zero_of_unpivoted (n k : Nat) (hk : k < n)
    (Mz : Matrix (Fin n) (Fin n) (ZMod P))
    (hT : ∀ i j : Fin n, (j : ℕ) < k → (j : ℕ) < (i : ℕ) → Mz i j = 0)
    (hcol : ∀ i : Fin n, k ≤ (i : ℕ) → Mz i ⟨k, hk⟩ = 0) :
    Mz.det = 0 := by
  rw [Matrix.det_apply]
  apply Finset.sum_eq_zero
  intro σ _
  have hzero : ∃ j ∈ Finset.univ.filter (fun j : Fin n => (j : ℕ) < k + 1),
      Mz (σ j) j = 0 := by
    by_contra hcon
    push_neg at hcon
    have hmap : ∀ j ∈ Finset.univ.filter (fun j : Fin n => (j : ℕ) < k + 1),
        σ j ∈ Finset.univ.filter (fun i : Fin n => (i : ℕ) < k) := by
      intro j hj
      have hjk : (j : ℕ) < k + 1 := (Finset.mem_filter.mp hj).2
      have hne := hcon j hj
      simp only [Finset.mem_filter, Finset.mem_univ, true_and]
      by_cases hcase : (j : ℕ) < k
      · by_contra hge
        exact hne (hT (σ j) j hcase (by omega))
      · have hjeq : j = (⟨k, hk⟩ : Fin n) := by
          apply Fin.ext
          show (j : ℕ) = k
          omega
        by_contra hge
        have hz : Mz (σ j) j = 0 := by
          have h2 : Mz (σ j) ⟨k, hk⟩ = 0 := hcol (σ j) (by omega)
          rwa [← hjeq] at h2
        exact hne hz
    have hcard := Finset.card_le_card_of_injOn σ hmap (σ.injective.injOn)
    rw [card_filter_lt_fin n (k + 1) (by omega), card_filter_lt_fin n k (by omega)]
      at hcard
    omega
  obtain ⟨j, _, hj⟩ := hzero
  have hp : (∏ i : Fin n, Mz (σ i) i) = 0 := Finset.prod_eq_zero (Finset.mem_univ j) hj
  rw [hp, smul_zero]

lemma elimBelowGo_spec (n k : Nat) (hk : k < n) :
    ∀ (rows : List Nat) (M : Mat),
      (∀ r ∈ rows, k < r ∧ r < n) → M k k ≠ 0 → inRange n M → triangularBelow n k M →
      ((∀ i' j', i' ∉ rows →
          (rows.foldl (fun Mc i => elimRow n Mc k i) M) i' j' = M i' j') ∧
        inRange n (rows.foldl (fun Mc i => elimRow n Mc k i) M) ∧
        (matZ n (rows.foldl (fun Mc i => elimRow n Mc k i) M)).det = (matZ n M).det ∧
        triangularBelow n k (rows.foldl (fun Mc i => elimRow n Mc k i) M) ∧
        (∀ r ∈ rows, (rows.foldl (fun Mc i => elimRow n Mc k i) M) r k = 0)) := by
  intro rows
  induction rows with
  | nil =>
    intro M h1 h2 h3 h4
    exact ⟨fun _ _ _ => rfl, h3, rfl, h4, fun r hr => absurd hr (List.not_mem_nil r)⟩
  | cons r rows ih =>
    intro M hmem hkk hin hT
    obtain ⟨hrk, hrn⟩ := hmem r (List.mem_cons_self r rows)
    rw [List.foldl_cons]
    have hrowk : ∀ j, j < k → M k j = 0 := fun j hj => hT k j hk hj hj
    have hM1kk : elimRow n M k r k k = M k k :=
      elimRow_untouched n k r M k k (Or.inl (by omega))
    have hM1in : inRange n (elimRow n M k r) := elimRow_inRange n k r M hin
    have hM1T : triangularBelow n k (elimRow n M k r) := by
      intro i j hi hj hij
      by_cases hir : i = r
      · rw [hir, elimRow_untouched n k r M r j (Or.inr (Or.inl hj))]
        exact hT r j hrn hj (by omega)
      · rw [elimRow_untouched n k r M i j (Or.inl hir)]
        exact hT i j hi hj hij
    have hM1det : (matZ n (elimRow n M k r)).det = (matZ n M).det :=
      det_matZ_elimRow n k r M hk hrn hrk hrowk
    have hM1rk : elimRow n M k r r k = 0 :=
      elimRow_col_k_zero n k r M hk hrn hrk hin hkk
    obtain ⟨g1, g2, g3, g4, g5⟩ := ih (elimRow n M k r)
      (fun x hx => hmem x (List.mem_cons_of_mem _ hx)) (hM1kk ▸ hkk) hM1in hM1T
    refine ⟨?_, g2, by rw [g3, hM1det], g4, ?_⟩
    · intro i' j' hni
      rw [g1 i' j' fun h => hni (List.mem_cons_of_mem _ h)]
      exact elimRow_untouched n k r M i' j'
        (Or.inl fun h => hni (h ▸ List.mem_cons_self r rows))
    · intro x hx
      rcases List.mem_cons.mp hx with rfl | hx'
      · by_cases hr' : x ∈ rows
        · exact g5 x hr'
        · rw [g1 x k hr']
          exact hM1rk
      · exact g5 x hx'

lemma elimBelow_spec (n k : Nat) (hk : k < n) (M : Mat) (hkk : M k k ≠ 0)
    (hin : inRange n M) (hT : triangularBelow n k M) :
    (∀ i' j', (i' ≤ k ∨ n ≤ i') → elimBelow n M k i' j' = M i' j') ∧
      inRange n (elimBelow n M k) ∧
      (matZ n (elimBelow n M k)).det = (matZ n M).det ∧
      triangularBelow n (k + 1) (elimBelow n M k) := by
  obtain ⟨g1, g2, g3, g4, g5⟩ := elimBelowGo_spec n k hk (List.range' (k + 1) (n - (k + 1))) M
    (fun r hr => by have := List.mem_range'_1.mp hr; omega) hkk hin hT
  refine ⟨?_, g2, g3, ?_⟩
  · intro i' j' h
    apply g1
    intro hmem
    have := List.mem_range'_1.mp hmem
    omega
  · intro i j hi hj hij
    by_cases hjk : j < k
    · exact g4 i j hi hjk hij
    · have hj' : j = k := by omega
      rw [hj']
      exact g5 i (List.mem_range'_1.mpr ⟨by omega, by omega⟩)

lemma swapRows_inRange (n a b : Nat) (M : Mat) (ha : a < n) (hb : b < n)
    (h : inRange n M) : inRange n (swapRows M a b) := by
  intro i j hi hj
  unfold swapRows
  by_cases h1 : i = a
  · rw [if_pos h1]
    exact h b j hb hj
  · rw [if_neg h1]
    by_cases h2 : i = b
    · rw [if_pos h2]
      exact h a j ha hj
    · rw [if_neg h2]
      exact h i j hi hj

lemma outerStep_reduce (n k : Nat) (M : Mat) (d : Int) :
    outerStep n (M, d) k
      = if findPivot n M k k = n then none
        else some (elimBelow n
            (if k = findPivot n M k k then M else swapRows M k (findPivot n M k k)) k,
          if k = findPivot n M k k then d else (p - d) % p) := rfl

lemma outerStep_spec (n k : Nat) (hk : k < n) (M : Mat) (d : Int)
    (hin : inRange n M) (hd : 0 ≤ d ∧ d < p) (hT : triangularBelow n k M) :
    (outerStep n (M, d) k = none → (matZ n M).det = 0) ∧
      (∀ M' d', outerStep n (M, d) k = some (M', d') →
        inRange n M' ∧ (0 ≤ d' ∧ d' < p) ∧ triangularBelow n (k + 1) M' ∧
          ((d' : Int) : ZMod P) * (matZ n M').det
            = ((d : Int) : ZMod P) * (matZ n M).det) := by
  obtain ⟨f1, f2, f3, f4⟩ := findPivot_spec (n - k) k n k M le_rfl (le_of_lt hk)
  rw [outerStep_reduce]
  by_cases hpn : findPivot n M k k = n
  · rw [if_pos hpn]
    constructor
    · intro _
      apply det_zero_of_unpivoted n k hk (matZ n M)
      · intro i j hjk hji
        rw [matZ_apply, hT i j i.isLt hjk hji]
        simp
      · intro i hki
        rw [matZ_apply]
        have hz : M (i : ℕ) k = 0 := f3 (i : ℕ) hki (by rw [hpn]; exact i.isLt)
        rw [hz]
        simp
    · intro M' d' h
      exact absurd h (by simp)
  · rw [if_neg hpn]
    have hpivlt : findPivot n M k k < n := by omega
    have hpivnz : M (findPivot n M k k) k ≠ 0 := f4 hpivlt
    set piv := findPivot n M k k with hpiv
    set M1 : Mat := if k = piv then M else swapRows M k piv with hM1def
    set d1 : Int := if k = piv then d else (p - d) % p with hd1def
    have hM1in : inRange n M1 := by
      rw [hM1def]
      by_cases hkp : k = piv
      · rw [if_pos hkp]; exact hin
      · rw [if_neg hkp]; exact swapRows_inRange n k piv M hk hpivlt hin
    have hM1kk : M1 k k ≠ 0 := by
      rw [hM1def]
      by_cases hkp : k = piv
      · rw [if_pos hkp]
        have hkk : M k k = M piv k := by rw [← hkp]
        rw [hkk]
        exact hpivnz
      · rw [if_neg hkp, swapRows_left]; exact hpivnz
    have hM1T : triangularBelow n k M1 := by
      rw [hM1def]
      by_cases hkp : k = piv
      · rw [if_pos hkp]; exact hT
      · rw [if_neg hkp]
        intro i j hi hj hij
        by_cases h1 : i = k
        · rw [h1, swapRows_left]
          exact hT piv j hpivlt hj (by omega)
        · by_cases h2 : i = piv
          · rw [h2, swapRows_right M k piv j fun hc => hkp hc.symm]
            exact hT k j hk hj hj
          · rw [swapRows_other M k piv i j h1 h2]
            exact hT i j hi hj hij
    have hd1 : 0 ≤ d1 ∧ d1 < p := by
      rw [hd1def]
      by_cases hkp : k = piv
      · rw [if_pos hkp]; exact hd
      · rw [if_neg hkp]; exact emod_range _
    have hdet1 : ((d1 : Int) : ZMod P) * (matZ n M1).det
        = ((d : Int) : ZMod P) * (matZ n M).det := by
      rw [hM1def, hd1def]
      by_cases hkp : k = piv
      · rw [if_pos hkp, if_pos hkp]
      · rw [if_neg hkp, if_neg hkp, det_matZ_swapRows n k piv hk hpivlt hkp, castNegD]
        ring
    obtain ⟨e1, e2, e3, e4⟩ := elimBelow_spec n k hk M1 hM1kk hM1in hM1T
    constructor
    · intro h
      exact absurd h (by simp)
    · intro M' d' h
      have hM' : M' = elimBelow n M1 k ∧ d' = d1 := by
        have := Option.some.inj h
        exact ⟨(Prod.mk.injEq _ _ _ _ ▸ this).1.symm, (Prod.mk.injEq _ _ _ _ ▸ this).2.symm⟩
      rw [hM'.1, hM'.2]
      exact ⟨e2, hd1, e4, by rw [e3]; exact hdet1⟩

lemma gaussElimUpTo_succ (n : Nat) (A : Mat) (m : Nat) :
    gaussElimUpTo n A (m + 1)
      = (gaussElimUpTo n A m).bind fun st => outerStep n st m := by
  unfold gaussElimUpTo
  rw [List.range_succ, List.foldl_append, List.foldl_cons, List.foldl_nil]

lemma gaussElimUpTo_spec (n : Nat) (A : Mat) (hin : inRange n A) :
    ∀ m, m ≤ n →
      (gaussElimUpTo n A m = none → (matZ n A).det = 0) ∧
      (∀ M d, gaussElimUpTo n A m = some (M, d) →
        inRange n M ∧ (0 ≤ d ∧ d < p) ∧ triangularBelow n m M ∧
          ((d : Int) : ZMod P) * (matZ n M).det = (matZ n A).det) := by
  intro m
  induction m with
  | zero =>
    intro _
    constructor
    · intro h
      exact absurd h (by simp [gaussElimUpTo])
    · intro M d h
      have h2 : (A, (1 : Int)) = (M, d) := by simpa [gaussElimUpTo] using h
      have hM : M = A := ((Prod.mk.injEq _ _ _ _ ▸ h2).1).symm
      have hdd : d = 1 := ((Prod.mk.injEq _ _ _ _ ▸ h2).2).symm
      rw [hM, hdd]
      refine ⟨hin, ⟨by norm_num, by norm_num [p]⟩,
        fun i j hi hj hij => absurd hj (Nat.not_lt_zero j), by simp⟩
  | succ m ih =>
    intro hm1
    obtain ⟨ih1, ih2⟩ := ih (by omega)
    rw [gaussElimUpTo_succ]
    cases hprev : gaussElimUpTo n A m with
    | none =>
      constructor
      · intro _
        exact ih1 hprev
      · intro M d h
        exact absurd h (by simp)
    | some st =>
      obtain ⟨M, d⟩ := st
      obtain ⟨j1, j2, j3, j4⟩ := ih2 M d hprev
      obtain ⟨o1, o2⟩ := outerStep_spec n m (by omega) M d j1 j2 j3
      rw [Option.some_bind]
      constructor
      · intro hnone
        rw [← j4, o1 hnone, mul_zero]
      · intro M' d' hsome
        obtain ⟨g1, g2, g3, g4⟩ := o2 M' d' hsome
        exact ⟨g1, g2, g3, by rw [g4, j4]⟩

lemma foldl_diag_cast (M : Mat) :
    ∀ (js : List Nat) (d : Int),
      ((js.foldl (fun d i => (d * M i i) % p) d : Int) : ZMod P)
        = ((d : Int) : ZMod P) * (js.map fun i => ((M i i : Int) : ZMod P)).prod := by
  intro js
  induction js with
  | nil => intro d; simp
  | cons j js ih =>
    intro d
    rw [List.foldl_cons, ih, castMod, List.map_cons, List.prod_cons]
    push_cast
    ring

lemma prod_map_range (n : Nat) (f : Nat → ZMod P) :
    ((List.range n).map f).prod = ∏ j ∈ Finset.range n, f j := by
  induction n with
  | zero => simp
  | succ m ih =>
    rw [List.range_succ, List.map_append, List.prod_append, Finset.prod_range_succ, ih]
    simp

lemma diagProd_cast (n : Nat) (M : Mat) (d : Int) :
    ((diagProd n M d : Int) : ZMod P)
      = ((d : Int) : ZMod P) * ∏ i : Fin n, matZ n M i i := by
  unfold diagProd
  rw [foldl_diag_cast, prod_map_range,
    ← Fin.prod_univ_eq_prod_range (fun j => ((M j j : Int) : ZMod P)) n]
  rfl

lemma det_triangular (n : Nat) (M : Mat) (hT : triangularBelow n n M) :
    (matZ n M).det = ∏ i : Fin n, matZ n M i i := by
  apply Matrix.det_of_upperTriangular
  intro i j hij
  rw [matZ_apply, hT (i : ℕ) (j : ℕ) i.isLt j.isLt hij]
  simp

/-- Master correctness theorem for the embedded `modularDeterminant`: on a
matrix with entries in `[0, p-1]` it returns a value in `[0, p-1]` whose
image in `ZMod P` is the determinant of the matrix over that field. -/
theorem modularDeterminant_spec (n : Nat) (A : Mat) (hin : inRange n A) :
    0 ≤ modularDeterminant n A ∧ modularDeterminant n A < p ∧
      ((modularDeterminant n A : Int) : ZMod P) = (matZ n A).det := by
  obtain ⟨h1, h2⟩ := gaussElimUpTo_spec n A hin n le_rfl
  unfold modularDeterminant gaussElim
  cases hG : gaussElimUpTo n A n with
  | none =>
    refine ⟨le_rfl, p_pos, ?_⟩
    rw [h1 hG]
    simp
  | some st =>
    obtain ⟨M, d⟩ := st
    obtain ⟨g1, g2, g3, g4⟩ := h2 M d hG
    refine ⟨(emod_range _).1, (emod_range _).2, ?_⟩
    rw [castMod]
    push_cast
    rw [intCast_p, add_zero, diagProd_cast, ← det_triangular n M g3, g4]

/-- The integer matrix underlying the first `n × n` entries of `A`. -/
def intMat (n : Nat) (A : Mat) : Matrix (Fin n) (Fin n) Int :=
  Matrix.of fun i j => A (i : Nat) (j : Nat)

lemma matZ_eq_map (n : Nat) (A : Mat) :
    matZ n A = (Int.castRingHom (ZMod P)).mapMatrix (intMat n A) := by
  ext i j
  rfl

lemma cast_inj_of_range {x y : Int} (hx0 : 0 ≤ x) (hx1 : x < p) (hy0 : 0 ≤ y)
    (hy1 : y < p) (h : ((x : ZMod P)) = ((y : ZMod P))) : x = y := by
  have hdvd : ((P : ℕ) : Int) ∣ (x - y) := by
    rw [← ZMod.intCast_zmod_eq_zero_iff_dvd]
    push_cast
    rw [h]
    ring
  have hP : ((P : ℕ) : Int) = p := by norm_num [P, p]
  rw [hP] at hdvd
  have h0 : (x - y) % p = 0 := Int.emod_eq_zero_of_dvd hdvd
  have h1 : x % p = y % p := Int.emod_eq_emod_iff_emod_sub_eq_zero.mpr h0
  rwa [Int.emod_eq_of_lt hx0 hx1, Int.emod_eq_of_lt hy0 hy1] at h1

lemma edmonds_inRange (n : Nat) (graph vals : Mat)
    (hvals : ∀ i j, i < n → j < n → 1 ≤ vals i j ∧ vals i j ≤ p - 1) :
    inRange n (edmondsMatrix graph vals) := by
  intro i j hi hj
  unfold edmondsMatrix
  by_cases h : graph i j = 1
  · rw [if_pos h]
    have := hvals i j hi hj
    omega
  · rw [if_neg h]
    exact ⟨le_rfl, p_pos⟩

lemma det_edmonds_zero_of_no_matching (n : Nat) (graph vals : Mat)
    (hnpm : ¬ ∃ σ : Equiv.Perm (Fin n), ∀ i : Fin n, graph (i : Nat) ((σ i : Fin n) : Nat) = 1) :
    (matZ n (edmondsMatrix graph vals)).det = 0 := by
  rw [Matrix.det_apply]
  apply Finset.sum_eq_zero
  intro σ _
  have hex : ∃ i : Fin n, graph ((σ i : Fin n) : Nat) (i : Nat) ≠ 1 := by
    by_contra hcon
    push_neg at hcon
    refine hnpm ⟨σ⁻¹, fun i => ?_⟩
    have := hcon (σ⁻¹ i)
    rwa [Equiv.Perm.apply_inv_self] at this
  obtain ⟨i, hi⟩ := hex
  have hz : matZ n (edmondsMatrix graph vals) (σ i) i = 0 := by
    rw [matZ_apply]
    unfold edmondsMatrix
    rw [if_neg hi]
    simp
  have hp2 : (∏ j : Fin n, matZ n (edmondsMatrix graph vals) (σ j) j) = 0 :=
    Finset.prod_eq_zero (Finset.mem_univ i) hz
  rw [hp2, smul_zero]

lemma elimRowChecked_eq (n k i : Nat) (M : Mat) (h : M k k ≠ 0) :
    elimRowChecked n M k i = some (elimRow n M k i) := by
  unfold elimRowChecked modInverseChecked elimRow
  rw [if_neg h]
  rfl

lemma elimBelowGoChecked_eq (n k : Nat) :
    ∀ (rows : List Nat) (M : Mat), (∀ r ∈ rows, k < r) → M k k ≠ 0 →
      (rows.foldlM (fun Mc i => elimRowChecked n Mc k i) M)
        = some (rows.foldl (fun Mc i => elimRow n Mc k i) M) := by
  intro rows
  induction rows with
  | nil => intro M _ _; rfl
  | cons r rows ih =>
    intro M hmem hkk
    rw [List.foldlM_cons, elimRowChecked_eq n k r M hkk]
    have hkr : k < r := hmem r (List.mem_cons_self r rows)
    have hstill : elimRow n M k r k k = M k k :=
      elimRow_untouched n k r M k k (Or.inl (by omega))
    rw [List.foldl_cons]
    have hrec := ih (elimRow n M k r) (fun x hx => hmem x (List.mem_cons_of_mem _ hx))
      (hstill ▸ hkk)
    simpa using hrec

lemma elimBelowChecked_eq (n k : Nat) (M : Mat) (hkk : M k k ≠ 0) :
    elimBelowChecked n M k = some (elimBelow n M k) := by
  unfold elimBelowChecked elimBelow
  exact elimBelowGoChecked_eq n k _ M
    (fun r hr => by have := List.mem_range'_1.mp hr; omega) hkk

lemma outerStepChecked_reduce (n k : Nat) (M : Mat) (d : Int) :
    outerStepChecked n (M, d) k
      = if findPivot n M k k = n then some none
        else (elimBelowChecked n
            (if k = findPivot n M k k then M else swapRows M k (findPivot n M k k)) k).map
          fun M2 => some (M2,
            if k = findPivot n M k k then d else (p - d) % p) := rfl

lemma outerStepChecked_eq (n k : Nat) (hk : k < n) (st : Mat × Int) :
    outerStepChecked n st k = some (outerStep n st k) := by
  obtain ⟨M, d⟩ := st
  obtain ⟨f1, f2, f3, f4⟩ := findPivot_spec (n - k) k n k M le_rfl (le_of_lt hk)
  rw [outerStepChecked_reduce, outerStep_reduce]
  by_cases hpn : findPivot n M k k = n
  · rw [if_pos hpn, if_pos hpn]
  · rw [if_neg hpn, if_neg hpn]
    have hpivnz : M (findPivot n M k k) k ≠ 0 := f4 (by omega)
    have hM1kk : (if k = findPivot n M k k then M
        else swapRows M k (findPivot n M k k)) k k ≠ 0 := by
      by_cases hkp : k = findPivot n M k k
      · rw [if_pos hkp]
        have hkk : M k k = M (findPivot n M k k) k := by rw [← hkp]
        rw [hkk]
        exact hpivnz
      · rw [if_neg hkp, swapRows_left]
        exact hpivnz
    rw [elimBelowChecked_eq n k _ hM1kk]
    rfl

lemma gaussElimChecked_go (n : Nat) (A : Mat) :
    ∀ (ks : List Nat), (∀ k ∈ ks, k < n) → ∀ st0 : Option (Mat × Int),
      (ks.foldl
        (fun ost k => ost.bind fun ores =>
          match ores with
          | none => some none
          | some st => outerStepChecked n st k) (some st0))
        = some (ks.foldl (fun ost k => ost.bind fun st => outerStep n st k) st0) := by
  intro ks
  induction ks with
  | nil => intro _ st0; rfl
  | cons k ks ih =>
    intro hmem st0
    rw [List.foldl_cons, List.foldl_cons, Option.some_bind]
    cases st0 with
    | none =>
      rw [Option.none_bind]
      exact ih (fun x hx => hmem x (List.mem_cons_of_mem _ hx)) none
    | some st =>
      rw [Option.some_bind]
      have hred : (match some st with
          | none => some none
          | some st => outerStepChecked n st k) = outerStepChecked n st k := rfl
      rw [hred, outerStepChecked_eq n k (hmem k (List.mem_cons_self k ks)) st]
      exact ih (fun x hx => hmem x (List.mem_cons_of_mem _ hx)) (outerStep n st k)

lemma gaussElimChecked_eq (n : Nat) (A : Mat) :
    gaussElimChecked n A = some (gaussElim n A) := by
  unfold gaussElimChecked gaussElim gaussElimUpTo
  exact gaussElimChecked_go n A (List.range n)
    (fun k hk => List.mem_range.mp hk) (some (A, 1))

end Bipartite

namespace Freivalds

/-- At most half of the boolean assignments can zero a fixed nontrivial
linear form: the pairing that flips coordinate `j₀` changes the form's
value by `±D j₀ ≠ 0`, so it maps zeros to nonzeros injectively. -/
lemma count_zero_linear_le (n : Nat) (hn : 1 ≤ n) (D : Nat → Int) (j₀ : Nat)
    (hj₀ : j₀ < n) (hD : D j₀ ≠ 0) :
    (Finset.univ.filter fun f : Fin n → Bool =>
        (∑ j ∈ Finset.range n, D j * (rVec n f).getD j 0) = 0).card ≤ 2 ^ (n - 1) := by
  classical
  set T : Finset (Fin n → Bool) := Finset.univ.filter fun f : Fin n → Bool =>
    (∑ j ∈ Finset.range n, D j * (rVec n f).getD j 0) = 0 with hT
  set j0' : Fin n := ⟨j₀, hj₀⟩ with hj0'
  set Φ : (Fin n → Bool) → (Fin n → Bool) :=
    fun f => Function.update f j0' (!(f j0')) with hPhi
  have hsplit : ∀ f : Fin n → Bool,
      (∑ j ∈ Finset.range n, D j * (rVec n f).getD j 0)
        = (∑ j ∈ (Finset.range n).erase j₀, D j * (rVec n f).getD j 0)
          + D j₀ * (rVec n f).getD j₀ 0 :=
    fun f => (Finset.sum_erase_add (Finset.range n) _ (Finset.mem_range.mpr hj₀)).symm
  have hflip_entry : ∀ f : Fin n → Bool, (Φ f) j0' = !(f j0') :=
    fun f => Function.update_same j0' (!(f j0')) f
  have hsame_entry : ∀ (f : Fin n → Bool) (x : Fin n), x ≠ j0' → (Φ f) x = f x :=
    fun f x hx => Function.update_noteq hx (!(f j0')) f
  have herase : ∀ f : Fin n → Bool,
      (∑ j ∈ (Finset.range n).erase j₀, D j * (rVec n (Φ f)).getD j 0)
        = ∑ j ∈ (Finset.range n).erase j₀, D j * (rVec n f).getD j 0 := by
    intro f
    refine Finset.sum_congr rfl fun j hj => ?_
    obtain ⟨hne, hmem⟩ := Finset.mem_erase.mp hj
    have hjn : j < n := Finset.mem_range.mp hmem
    rw [getD_rVec n (Φ f) j hjn, getD_rVec n f j hjn,
      hsame_entry f ⟨j, hjn⟩ (fun hc => hne (by simpa [hj0', Fin.ext_iff] using hc))]
  have hkey : ∀ f : Fin n → Bool, f ∈ T → Φ f ∉ T := by
    intro f hf hPf
    rw [hT, Finset.mem_filter] at hf hPf
    have h1 := hf.2
    have h2 := hPf.2
    rw [hsplit f] at h1
    rw [hsplit (Φ f), herase f] at h2
    rw [getD_rVec n f j₀ hj₀] at h1
    rw [getD_rVec n (Φ f) j₀ hj₀] at h2
    have hj0e : (⟨j₀, hj₀⟩ : Fin n) = j0' := rfl
    rw [hj0e, hflip_entry f] at h2
    cases hfv : f j0' with
    | false =>
      rw [hfv] at h1 h2
      simp at h1 h2
      exact hD (by omega)
    | true =>
      rw [hfv] at h1 h2
      simp at h1 h2
      exact hD (by omega)
  have hinv : Function.Involutive Φ := by
    intro f
    funext x
    by_cases hx : x = j0'
    · rw [hx, hflip_entry (Φ f), hflip_entry f, Bool.not_not]
    · rw [hsame_entry (Φ f) x hx, hsame_entry f x hx]
  have hmaps : ∀ f ∈ T, Φ f ∈ Finset.univ \ T := by
    intro f hf
    rw [Finset.mem_sdiff]
    exact ⟨Finset.mem_univ _, hkey f hf⟩
  have hcard := Finset.card_le_card_of_injOn Φ hmaps (hinv.injective.injOn)
  rw [Finset.card_sdiff (Finset.subset_univ T)] at hcard
  have huniv : (Finset.univ : Finset (Fin n → Bool)).card = 2 ^ n := by
    rw [Finset.card_univ]
    rw [Fintype.card_fun]
    simp
  rw [huniv] at hcard
  obtain ⟨m, rfl⟩ : ∃ m, n = m + 1 := ⟨n - 1, by omega⟩
  have hpow : (2 : ℕ) ^ (m + 1) = 2 * 2 ^ m := by
    rw [pow_succ]
    ring
  have hTle : T.card ≤ 2 ^ (m + 1) := by
    calc T.card ≤ (Finset.univ : Finset (Fin (m + 1) → Bool)).card :=
          Finset.card_le_card (Finset.subset_univ T)
      _ = 2 ^ (m + 1) := huniv
  simp only [Nat.add_sub_cancel]
  omega

end Freivalds

open Freivalds Bipartite

/-- C1: for every `n ≥ 1` and all `n × n` integer matrices `A`, `B`, `C`
with `C = A·B` exactly, `freivaldsVerify A B C` returns `true` for every
0/1 vector `r` that could be sampled — no false negative ever. -/
theorem freivalds_no_false_negative {n : Nat} (A B C : List (List Int))
    (r : List Int) (hn : 1 ≤ n) (hA : wf A n n) (hB : wf B n n) (hC : wf C n n)
    (hprod : C = matMul A B) (hr : r.length = n)
    (h01 : ∀ x ∈ r, x = 0 ∨ x = 1) :
    freivaldsVerify A B C r = some true := by
  rw [freivaldsVerify_eq_of_wf hn hA hB hC hr, hprod, matVec_assoc hA hB hr]
  simp

theorem freivalds_no_false_negative_witness :
    (1 ≤ 3 ∧ wf [[1,2,3],[4,5,6],[7,8,9]] 3 3 ∧ wf [[9,8,7],[6,5,4],[3,2,1]] 3 3 ∧
      wf [[30,24,18],[84,69,54],[138,114,90]] 3 3 ∧
      [[30,24,18],[84,69,54],[138,114,90]]
        = matMul [[1,2,3],[4,5,6],[7,8,9]] [[9,8,7],[6,5,4],[3,2,1]] ∧
      ([1,0,1] : List Int).length = 3 ∧
      (∀ x ∈ ([1,0,1] : List Int), x = 0 ∨ x = 1)) ∧
    freivaldsVerify [[1,2,3],[4,5,6],[7,8,9]] [[9,8,7],[6,5,4],[3,2,1]]
      [[30,24,18],[84,69,54],[138,114,90]] [1,0,1] = some true :=
  ⟨⟨by norm_num, by decide, by decide, by decide, by decide, by decide, by decide⟩,
    @freivalds_no_false_negative 3 [[1,2,3],[4,5,6],[7,8,9]] [[9,8,7],[6,5,4],[3,2,1]]
      [[30,24,18],[84,69,54],[138,114,90]] [1,0,1] (by norm_num) (by decide) (by decide)
      (by decide) (by decide) (by decide) (by decide)⟩

/-- C4: if `A·B ≠ C` (all `n × n`, `n ≥ 1`), then at most `2^(n-1)` of the
`2^n` possible 0/1 vectors `r` make a single trial of `freivaldsVerify`
return `true` — the false-positive probability is at most `1/2`. -/
theorem freivalds_false_positive_at_most_half {n : Nat} (A B C : List (List Int))
    (hn : 1 ≤ n) (hA : wf A n n) (hB : wf B n n) (hC : wf C n n)
    (hne : C ≠ matMul A B) :
    (Finset.univ.filter fun f : Fin n → Bool =>
        freivaldsVerify A B C (rVec n f) = some true).card ≤ 2 ^ (n - 1) := by
  classical
  have hex : ∃ i j, i < n ∧ j < n ∧ ent (matMul A B) i j ≠ ent C i j := by
    by_contra hcon
    push_neg at hcon
    have heq : matMul A B = C :=
      eq_of_ent_eq (wf_matMul A B n hA.1) hC fun i hi j hj => hcon i j hi hj
    exact hne heq.symm
  obtain ⟨i₀, j₀, hi₀, hj₀, hD⟩ := hex
  have hsub : (Finset.univ.filter fun f : Fin n → Bool =>
        freivaldsVerify A B C (rVec n f) = some true)
      ⊆ Finset.univ.filter fun f : Fin n → Bool =>
        (∑ j ∈ Finset.range n,
          (ent (matMul A B) i₀ j - ent C i₀ j) * (rVec n f).getD j 0) = 0 := by
    intro f hf
    rw [Finset.mem_filter] at hf ⊢
    refine ⟨Finset.mem_univ f, ?_⟩
    have hver := hf.2
    rw [freivaldsVerify_eq_of_wf hn hA hB hC (length_rVec n f)] at hver
    have heq : matVec A (matVec B (rVec n f)) = matVec C (rVec n f) :=
      eq_of_beq (Option.some.inj hver)
    rw [matVec_assoc hA hB (length_rVec n f)] at heq
    have e1 := congrArg (fun L => L.getD i₀ 0) heq
    simp only at e1
    have hlenAB : i₀ < (matMul A B).length := by
      rw [(wf_matMul A B n hA.1).1]
      exact hi₀
    have hlenC : i₀ < C.length := by
      rw [hC.1]
      exact hi₀
    rw [getD_matVec (matMul A B) _ i₀ hlenAB, getD_matVec C _ i₀ hlenC,
      (wf_matMul A B n hA.1).1, hC.1] at e1
    have hsplit : (∑ j ∈ Finset.range n,
          (ent (matMul A B) i₀ j - ent C i₀ j) * (rVec n f).getD j 0)
        = (∑ j ∈ Finset.range n, ent (matMul A B) i₀ j * (rVec n f).getD j 0)
          - ∑ j ∈ Finset.range n, ent C i₀ j * (rVec n f).getD j 0 := by
      rw [← Finset.sum_sub_distrib]
      exact Finset.sum_congr rfl fun j _ => by ring
    rw [hsplit, e1, sub_self]
  calc (Finset.univ.filter fun f : Fin n → Bool =>
          freivaldsVerify A B C (rVec n f) = some true).card
      ≤ (Finset.univ.filter fun f : Fin n → Bool =>
          (∑ j ∈ Finset.range n,
            (ent (matMul A B) i₀ j - ent C i₀ j) * (rVec n f).getD j 0) = 0).card :=
        Finset.card_le_card hsub
    _ ≤ 2 ^ (n - 1) := count_zero_linear_le n hn _ j₀ hj₀ (sub_ne_zero.mpr hD)

theorem freivalds_false_positive_at_most_half_witness :
    (1 ≤ 2 ∧ wf [[1,0],[0,1]] 2 2 ∧ wf [[1,0],[0,1]] 2 2 ∧ wf [[1,0],[0,2]] 2 2 ∧
      [[1,0],[0,2]] ≠ matMul [[1,0],[0,1]] [[1,0],[0,1]]) ∧
    (Finset.univ.filter fun f : Fin 2 → Bool =>
        freivaldsVerify [[1,0],[0,1]] [[1,0],[0,1]] [[1,0],[0,2]] (rVec 2 f)
          = some true).card ≤ 2 ^ (2 - 1) :=
  ⟨⟨by norm_num, by decide, by decide, by decide, by decide⟩,
    @freivalds_false_positive_at_most_half 2 [[1,0],[0,1]] [[1,0],[0,1]] [[1,0],[0,2]]
      (by norm_num) (by decide) (by decide) (by decide) (by decide)⟩

/-- C5 (counterexample): on a dimension mismatch the code does NOT fail
with a distinguishable condition — it returns the plain boolean verdict
`false`, the very same observable value a well-formed failing verification
produces (`A = 2×2`, `B = 1×1` mismatched below; `[[2]]·[[2]] ≠ [[5]]`
well-formed). -/
theorem dimension_mismatch_counterexample :
    ¬ dimsValid [[1,0],[0,1]] [[1]] [[1,0],[0,1]] ∧
      freivaldsVerify [[1,0],[0,1]] [[1]] [[1,0],[0,1]] [1,0] = some false ∧
      freivaldsVerify [[2]] [[2]] [[5]] [1] = some false :=
  ⟨by decide, by decide, by decide⟩

/-- C5 (amended): when the three matrices are not all `n × n` for a common
`n ≥ 1`, `freivaldsVerify` returns the boolean `false` — the same value as
a failed verification verdict — rather than a distinguishable
DimensionMismatch failure. -/
theorem dimension_mismatch_returns_false (A B C : List (List Int))
    (r : List Int) (h : ¬ dimsValid A B C) :
    freivaldsVerify A B C r = some false := by
  unfold freivaldsVerify
  rw [if_neg h]

theorem dimension_mismatch_returns_false_witness :
    ¬ dimsValid [[1,0],[0,1]] [[1]] [[1,0],[0,1]] ∧
      freivaldsVerify [[1,0],[0,1]] [[1]] [[1,0],[0,1]] [0,1] = some false :=
  ⟨by decide, dimension_mismatch_returns_false _ _ _ _ (by decide)⟩

/-- C9: the dimension validation inspects only the row counts and the
first-row lengths, so for every `n ≥ 1` a ragged input whose first rows
look `n × n` passes validation; the concrete ragged `A = [[1,2],[3]]` is
then processed and the matrix–vector product indexes past the short row
(modelled by the `none` result). -/
theorem ragged_rows_pass_validation :
    (∀ (n : Nat) (A B C : List (List Int)), 1 ≤ n →
        A.length = n → (A.headD []).length = n → B.length = n →
        (B.headD []).length = n → C.length = n → (C.headD []).length = n →
        dimsValid A B C) ∧
      (dimsValid [[1,2],[3]] [[1,0],[0,1]] [[0,0],[0,0]] ∧
        freivaldsVerify [[1,2],[3]] [[1,0],[0,1]] [[0,0],[0,0]] [1,1] = none) := by
  constructor
  · intro n A B C hn h1 h2 h3 h4 h5 h6
    exact ⟨by omega, by omega, by omega, by omega, by omega, by omega⟩
  · exact ⟨by decide, by decide⟩

theorem ragged_rows_pass_validation_witness :
    (1 ≤ 2 ∧ ([[1,2],[3]] : List (List Int)).length = 2 ∧
      (([[1,2],[3]] : List (List Int)).headD []).length = 2 ∧
      ([[1,0],[0,1]] : List (List Int)).length = 2 ∧
      (([[1,0],[0,1]] : List (List Int)).headD []).length = 2 ∧
      ([[0,0],[0,0]] : List (List Int)).length = 2 ∧
      (([[0,0],[0,0]] : List (List Int)).headD []).length = 2) ∧
    dimsValid [[1,2],[3]] [[1,0],[0,1]] [[0,0],[0,0]] :=
  ⟨⟨by norm_num, by decide, by decide, by decide, by decide, by decide, by decide⟩,
    ragged_rows_pass_validation.1 2 _ _ _ (by norm_num) (by decide) (by decide)
      (by decide) (by decide) (by decide) (by decide)⟩

/-- C2: on a bipartite adjacency with no perfect matching (no permutation
selects only edges), `hasPerfectMatching` returns `false` for every
possible assignment of random nonzero field elements to the edge entries:
every evaluation of the Edmonds determinant is `0`. -/
theorem matching_no_false_positive {n : Nat} (graph vals : Mat)
    (hgraph : ∀ i j, i < n → j < n → graph i j = 0 ∨ graph i j = 1)
    (hvals : ∀ i j, i < n → j < n → 1 ≤ vals i j ∧ vals i j ≤ p - 1)
    (hnpm : ¬ ∃ σ : Equiv.Perm (Fin n),
      ∀ i : Fin n, graph (i : Nat) ((σ i : Fin n) : Nat) = 1) :
    hasPerfectMatching n graph vals = false := by
  have hn : n ≠ 0 := by
    intro h
    subst h
    exact hnpm ⟨Equiv.refl _, fun i => i.elim0⟩
  unfold hasPerfectMatching
  rw [if_neg hn]
  have hin := edmonds_inRange n graph vals hvals
  obtain ⟨m0, m1, mcast⟩ := modularDeterminant_spec n _ hin
  have hdet := det_edmonds_zero_of_no_matching n graph vals hnpm
  have hzero : modularDeterminant n (edmondsMatrix graph vals) = 0 :=
    (cast_eq_zero_iff_of_range m0 m1).mp (by rw [mcast, hdet])
  simp [hzero]

theorem matching_no_false_positive_witness :
    ((∀ i j, i < 3 → j < 3 →
        (fun i j => (([[0,1,0],[0,1,0],[1,0,1]] : List (List Int)).getD i []).getD j 0) i j = 0 ∨
        (fun i j => (([[0,1,0],[0,1,0],[1,0,1]] : List (List Int)).getD i []).getD j 0) i j = 1) ∧
      (∀ i j, i < 3 → j < 3 →
        1 ≤ (fun _ _ => (1 : Int)) i j ∧ (fun _ _ => (1 : Int)) i j ≤ p - 1) ∧
      ¬ ∃ σ : Equiv.Perm (Fin 3), ∀ i : Fin 3,
        (fun i j => (([[0,1,0],[0,1,0],[1,0,1]] : List (List Int)).getD i []).getD j 0)
          (i : Nat) ((σ i : Fin 3) : Nat) = 1) ∧
    hasPerfectMatching 3
      (fun i j => (([[0,1,0],[0,1,0],[1,0,1]] : List (List Int)).getD i []).getD j 0)
      (fun _ _ => (1 : Int)) = false :=
  ⟨⟨fun i j hi hj => by interval_cases i <;> interval_cases j <;> decide,
    fun i j _ _ => ⟨le_rfl, by norm_num [p]⟩, by decide⟩,
    @matching_no_false_positive 3
      (fun i j => (([[0,1,0],[0,1,0],[1,0,1]] : List (List Int)).getD i []).getD j 0)
      (fun _ _ => (1 : Int))
      (fun i j hi hj => by interval_cases i <;> interval_cases j <;> decide)
      (fun i j _ _ => ⟨le_rfl, by norm_num [p]⟩) (by decide)⟩

/-- C3: on matrices with entries in `[0, p-1]`, `modularDeterminant`
computes the true integer determinant reduced mod `p`; in particular the
`3 × 3` identity yields `1` and any matrix with a zero row yields `0`
(row exchanges being accounted for by the `det = (p - det) % p` sign
flip inside the algorithm). -/
theorem modularDeterminant_matches_integer_det :
    (∀ (n : Nat) (A : Mat), inRange n A →
        modularDeterminant n A = (intMat n A).det % p) ∧
      modularDeterminant 3 (fun i j => if i = j then 1 else 0) = 1 ∧
      (∀ (n : Nat) (A : Mat) (i₀ : Nat), inRange n A → i₀ < n →
        (∀ j, j < n → A i₀ j = 0) → modularDeterminant n A = 0) := by
  have main : ∀ (n : Nat) (A : Mat), inRange n A →
      modularDeterminant n A = (intMat n A).det % p := by
    intro n A hin
    obtain ⟨m0, m1, mcast⟩ := modularDeterminant_spec n A hin
    have hy := emod_range ((intMat n A).det)
    apply cast_inj_of_range m0 m1 hy.1 hy.2
    rw [mcast, castMod, matZ_eq_map, ← RingHom.map_det]
    rfl
  refine ⟨main, ?_, ?_⟩
  · rw [main 3 _ (by decide)]
    have hid : intMat 3 (fun i j => if i = j then 1 else 0) = 1 := by
      ext i j
      simp [intMat, Matrix.one_apply, Fin.ext_iff]
    rw [hid, Matrix.det_one]
    decide
  · intro n A i₀ hin hi₀ hzero
    rw [main n A hin]
    have hdet : (intMat n A).det = 0 := by
      apply Matrix.det_eq_zero_of_row_eq_zero ⟨i₀, hi₀⟩
      intro j
      exact hzero (j : Nat) j.isLt
    rw [hdet]
    simp

theorem modularDeterminant_matches_integer_det_witness :
    inRange 3 (fun i j => if i = j then (1 : Int) else 0) ∧
      modularDeterminant 3 (fun i j => if i = j then (1 : Int) else 0)
        = (intMat 3 (fun i j => if i = j then (1 : Int) else 0)).det % p :=
  ⟨by decide, modularDeterminant_matches_integer_det.1 3 _ (by decide)⟩

/-- C6: the instrumented determinant — in which every `modInverse` call
checks its documented nonzero precondition and aborts on violation —
always succeeds, and agrees with the plain routine: during elimination the
pivot entry `A[k][k]` is nonzero whenever a factor is computed, because a
zero-pivot column makes the routine return `0` before any inverse is
taken. -/
theorem modInverse_never_called_on_zero (n : Nat) (A : Mat) :
    modularDeterminantChecked n A = some (modularDeterminant n A) := by
  unfold modularDeterminantChecked modularDeterminant
  rw [gaussElimChecked_eq]
  cases hG : gaussElim n A with
  | none => rfl
  | some st => rfl

/-- C7: starting from entries in `[0, p-1]`, every entry stored back during
elimination (row operations and swaps), the running determinant after any
number of outer iterations, and the returned result all stay in
`[0, p-1]`. -/
theorem elimination_stays_in_field_range :
    (∀ (n k i : Nat) (M : Mat), inRange n M → inRange n (elimRow n M k i)) ∧
      (∀ (n a b : Nat) (M : Mat), a < n → b < n → inRange n M →
        inRange n (swapRows M a b)) ∧
      (∀ (n m : Nat) (A M : Mat) (d : Int), inRange n A → m ≤ n →
        gaussElimUpTo n A m = some (M, d) → inRange n M ∧ 0 ≤ d ∧ d < p) ∧
      (∀ (n : Nat) (A : Mat), inRange n A →
        0 ≤ modularDeterminant n A ∧ modularDeterminant n A < p) := by
  refine ⟨fun n k i M h => elimRow_inRange n k i M h,
    fun n a b M ha hb h => swapRows_inRange n a b M ha hb h, ?_, ?_⟩
  · intro n m A M d hin hm hsome
    obtain ⟨g1, g2, _, _⟩ := (gaussElimUpTo_spec n A hin m hm).2 M d hsome
    exact ⟨g1, g2.1, g2.2⟩
  · intro n A hin
    obtain ⟨m0, m1, _⟩ := modularDeterminant_spec n A hin
    exact ⟨m0, m1⟩

theorem elimination_stays_in_field_range_witness :
    inRange 2 (fun i j => (2 : Int) * (i : Int) + (j : Int)) ∧
      (0 ≤ modularDeterminant 2 (fun i j => (2 : Int) * (i : Int) + (j : Int)) ∧
        modularDeterminant 2 (fun i j => (2 : Int) * (i : Int) + (j : Int)) < p) :=
  ⟨by decide, elimination_stays_in_field_range.2.2.2 2 _ (by decide)⟩

/-- C8: on the empty `0 × 0` adjacency matrix, `hasPerfectMatching` returns
`true` deterministically — the result does not depend on the random value
stream at all (the `n == 0` early return precedes any sampling or
determinant computation). -/
theorem empty_graph_has_perfect_matching (graph vals vals' : Mat) :
    hasPerfectMatching 0 graph vals = true ∧
      hasPerfectMatching 0 graph vals = hasPerfectMatching 0 graph vals' := by
  constructor <;> simp [hasPerfectMatching]

/-- C10: `modInverse 0` silently returns the value `0` (since
`power 0 (p-2) = 0` for the odd exponent `p - 2`) instead of signalling the
precondition violation. -/
theorem modInverse_zero_returns_zero :
    modInverse 0 = power 0 (p - 2) ∧ modInverse 0 = 0 :=
  ⟨rfl, modInverse_zero⟩

end RandAlg
